import Mathlib

/-!
Verification of the entity-component core (a Rust crate): the entity/generation
allocator, the world's live-entity iterator, the scheduler's entity lifecycle
API, the appendix bookkeeping, and the dispatch body of the generated system
entry points.

Machine integers are modelled as `Nat` (the `u32` index, always used as a
`usize` position into the generation table) and `Int` (the `i32` generation);
none of the verified claims concern wraparound behaviour.  Operations that can
fail an assertion (or index out of bounds) in the source are modelled as
`Option`-returning functions, with `none` standing for the fatal failure.
-/

namespace Specs

/--
Rust `struct Entity(Index, Generation)` with `get_id` and `get_gen`.
`Index = u32` (used as a `usize` position into the generation table) is
modelled as `Nat`; `Generation = i32` (`g ≤ 0` means the slot is dead,
`g > 0` alive) is modelled as `Int`.
-/
structure Entity where
  id : Nat
  gen : Int
deriving Repr, DecidableEq

/-- The generation table: `Vec<Generation>` guarded by the world's lock. -/
abbrev Generations := List Int

/--
Translation of `World::find_next`:
```
fn find_next(&self, base: usize) -> Entity {
    let gens = self.generations.read().unwrap();
    match gens.iter().enumerate().skip(base).find(|&(_, g)| *g <= 0) {
        Some((id, gen)) => Entity(id as Index, 1 - gen),
        None => Entity(gens.len() as Index, 1),
    }
}
```
-/
def find_next (gens : Generations) (base : Nat) : Entity :=
  match (gens.enum.drop base).find? (fun p => p.2 ≤ 0) with
  | some (id, gen) => ⟨id, 1 - gen⟩
  | none => ⟨gens.length, 1⟩

/--
Translation of `EntityIter::next`: the iterator scans the generation table from
a cursor, skipping non-positive generations and yielding `Entity(index, gen)`
for each positive one; exhausting the table ends the iteration.
`entityIterFrom tl base` is the full sequence such an iterator yields when its
cursor sits at absolute position `base` and `tl` is the suffix of the table
from position `base` on.
-/
def entityIterFrom : Generations → Nat → List Entity
  | [], _ => []
  | g :: tl, base =>
      if g > 0 then ⟨base, g⟩ :: entityIterFrom tl (base + 1)
      else entityIterFrom tl (base + 1)

/-- Translation of `World::entities`: a fresh iterator over the table, cursor at 0. -/
def entities (gens : Generations) : List Entity :=
  entityIterFrom gens 0

/--
Translation of `struct Appendix`: the predicted next entity plus the queues of
entities dynamically inserted/removed during a dispatch.
-/
structure Appendix where
  next : Entity
  add_queue : List Entity
  sub_queue : List Entity
deriving Repr, DecidableEq

/--
Translation of `WorldArg::insert`: takes the predicted `next`, pushes it onto
`add_queue`, re-predicts `next` via `find_next` just past the used index, and
returns the taken entity.
-/
def insert (gens : Generations) (app : Appendix) : Entity × Appendix :=
  let ent := app.next
  (ent, { next := find_next gens (ent.id + 1),
          add_queue := app.add_queue ++ [ent],
          sub_queue := app.sub_queue })

/-- `n` successive `WorldArg::insert` calls; returns the entities in call order. -/
def insertMany (gens : Generations) (app : Appendix) : Nat → List Entity × Appendix
  | 0 => ([], app)
  | n + 1 =>
      let r := insert gens app
      let rs := insertMany gens r.2 n
      (r.1 :: rs.1, rs.2)

/--
Translation of `WorldArg::remove`: pushes the entity onto `sub_queue`; touches
neither the generation table nor any storage.
-/
def remove (app : Appendix) (entity : Entity) : Appendix :=
  { app with sub_queue := app.sub_queue ++ [entity] }

/--
Translation of `Scheduler::add_entity`: takes the predicted `next`, asserts its
generation is positive, and when the generation is exactly 1 (first occupation
of the index) asserts the table length equals the index and appends the
generation to the table; then re-predicts `next` via `find_next` just past the
used index.  Returns the taken entity together with the updated table and
appendix; `none` models a failed `assert!`.
-/
def add_entity (gens : Generations) (app : Appendix) :
    Option (Entity × Generations × Appendix) :=
  let ent := app.next
  if ent.gen > 0 then
    if ent.gen = 1 then
      if gens.length = ent.id then
        let gens2 := gens ++ [ent.gen]
        some (ent, gens2, { app with next := find_next gens2 (ent.id + 1) })
      else none
    else
      some (ent, gens, { app with next := find_next gens (ent.id + 1) })
  else none

/--
Translation of `Scheduler::del_entity` (the generation-table part; the
per-storage `del_slice` calls touch only the external storage collaborators):
indexes the table at `entity.get_id()` (out of bounds is a panic, modelled as
`none`), asserts the stored generation is positive, lowers the predicted
`next` to `Entity(entity.0, gen + 1)` when the killed index precedes it, and
flips the sign of the stored generation.
-/
def del_entity (gens : Generations) (app : Appendix) (entity : Entity) :
    Option (Generations × Appendix) :=
  if entity.id < gens.length then
    let g := gens.getD entity.id 0
    if g > 0 then
      let app2 :=
        if entity.id < app.next.id then { app with next := ⟨entity.id, g + 1⟩ }
        else app
      some (gens.set entity.id (-g), app2)
    else none
  else none

/--
The `while gens.len() <= ent.get_id() { gens.push(0); }` loop of
`Scheduler::rest`: zero-fill the table until its length is at least `n`.
-/
def growTo (gens : Generations) (n : Nat) : Generations :=
  gens ++ List.replicate (n - gens.length) 0

/--
The add-queue loop of `Scheduler::rest`: for each queued entity, grow the
table up to its index, assert `ent.get_gen() == 1 - gens[ent.get_id()]`, and
commit the generation.  `none` models a failed `assert_eq!`.
-/
def rest_adds : Generations → List Entity → Option Generations
  | gens, [] => some gens
  | gens, e :: tl =>
      let gens2 := growTo gens (e.id + 1)
      if e.gen = 1 - gens2.getD e.id 0 then
        rest_adds (gens2.set e.id e.gen) tl
      else none

/--
The sub-queue loop of `Scheduler::rest`: for each queued entity, assert
`ent.get_gen() == gens[ent.get_id()]` (an out-of-bounds index is a panic,
modelled as `none`), lower the running `next` to `Entity(ent.0, ent.1 + 1)`
when the freed index precedes it, and flip the sign of the table entry.
-/
def rest_subs : Generations → Entity → List Entity → Option (Generations × Entity)
  | gens, next, [] => some (gens, next)
  | gens, next, e :: tl =>
      if e.id < gens.length then
        if e.gen = gens.getD e.id 0 then
          let next2 := if e.id < next.id then ⟨e.id, e.gen + 1⟩ else next
          rest_subs (gens.set e.id (-(gens.getD e.id 0))) next2 tl
        else none
      else none

/--
Translation of `Scheduler::rest`: drain the add queue into the table, then
drain the sub queue (threading the predicted `next` through the loop), store
the final `next` back, and leave both queues empty.
-/
def rest (gens : Generations) (app : Appendix) : Option (Generations × Appendix) :=
  (rest_adds gens app.add_queue).bind fun gens2 =>
    (rest_subs gens2 app.next app.sub_queue).map fun r =>
      (r.1, { next := r.2, add_queue := [], sub_queue := [] })

/--
Translation of `WorldArg::fetch`: the one-shot pulse slot
(`RefCell<Option<Pulse>>`) is taken (`none` afterwards), the closure `f` runs
against the world, the pulse fires, and `f`'s result is returned.  A call with
the pulse already taken is the fatal `expect("fetch may only be called once.")`,
modelled as `none`.
-/
def fetch {α β : Type} (pulse : Option Unit) (world : α) (f : α → β) :
    Option (β × Option Unit) :=
  match pulse with
  | some _ => some (f world, none)
  | none => none

/--
Presence of an entity in every requested storage: the
`if let (Some(w0), .., Some(r0), ..) = (w0.get_mut(ent), .., r0.get(ent), ..)`
filter of the generated system bodies, with each storage abstracted to the
presence predicate of its external collaborator contract.
-/
def presentAll (writes reads : List (Entity → Bool)) (e : Entity) : Bool :=
  writes.all (fun s => s e) && reads.all (fun s => s e)

/-- Observable events of a dispatched system body, in program order. -/
inductive Ev where
  /-- The lock-acquisition closure passed to `fetch` has returned. -/
  | closureRet : Ev
  /-- The one-shot completion signal fires (`pulse.pulse()`). -/
  | pulse : Ev
  /-- The user functor is invoked for this entity. -/
  | visit : Entity → Ev
deriving Repr, DecidableEq

/--
One filtering pass of a generated system body over a list of entities: each
entity present in every requested storage is visited, the others are skipped
silently.
-/
def passTrace (writes reads : List (Entity → Bool)) : List Entity → List Ev
  | [] => []
  | e :: tl =>
      (if presentAll writes reads e then [Ev.visit e] else [])
        ++ passTrace writes reads tl

/--
Event trace of the body the `impl_run` macro generates: `fetch` runs the
lock-acquisition closure (write locks, then read locks, then the entity
iterator), the closure returns, the pulse fires, then the body iterates the
snapshotted entities and after them the appendix's `add_queue` (via
`NewEntityIter`, which yields `add_queue` in order), applying the same
per-entity presence filter to both passes.
-/
def dispatchTrace (writes reads : List (Entity → Bool)) (gens : Generations)
    (addQueue : List Entity) : List Ev :=
  Ev.closureRet :: Ev.pulse ::
    (passTrace writes reads (entities gens) ++ passTrace writes reads addQueue)

/-- The entities visited in a trace, in visit order. -/
def visitedOf : List Ev → List Entity
  | [] => []
  | Ev.visit e :: tl => e :: visitedOf tl
  | _ :: tl => visitedOf tl

/-- Operations on a single slot of the generation table. -/
inductive SlotOp where
  /-- The slot is picked by the allocator (it must be dead) and revived. -/
  | alloc : SlotOp
  /-- The slot's live entity is killed (`del_entity` / the sub-queue loop). -/
  | kill : SlotOp
deriving Repr, DecidableEq

/--
The single-slot projection of the allocator and the kill paths: reviving a
dead slot holding `g ≤ 0` assigns it the generation `find_next` computes for
the single-slot table `[g]` (the commit paths `add_entity`/`rest_adds` write
exactly the predicted generation); killing a live slot flips the sign
(`*gen *= -1` in `del_entity`, `gens[id] *= -1` in `rest_subs`).  A step on a
slot in the wrong state is the fatal assertion, modelled as `none`.
-/
def slotStep (g : Int) : SlotOp → Option Int
  | SlotOp.alloc => if g ≤ 0 then some (find_next [g] 0).gen else none
  | SlotOp.kill => if 0 < g then some (-g) else none

/--
Run a sequence of single-slot operations from generation `g`; returns the
final generation together with the list of generations assigned at each
revival, in order.
-/
def runRev : Int → List SlotOp → Option (Int × List Int)
  | g, [] => some (g, [])
  | g, op :: ops =>
      match slotStep g op with
      | none => none
      | some g2 =>
          match runRev g2 ops with
          | none => none
          | some (gf, revs) =>
              some (gf, (match op with
                         | SlotOp.alloc => [g2]
                         | SlotOp.kill => []) ++ revs)

/-! ## Helper lemmas -/

theorem enumFrom_drop {α : Type} (l : List α) (n k : Nat) :
    (l.enumFrom n).drop k = (l.drop k).enumFrom (n + k) := by
  induction l generalizing n k with
  | nil => simp
  | cons a tl ih =>
    cases k with
    | zero => simp
    | succ k =>
      simp only [List.enumFrom_cons, List.drop_succ_cons]
      rw [ih]
      ring_nf

theorem find?_enumFrom_spec (l : List Int) (n : Nat) :
    (∀ i g, (l.enumFrom n).find? (fun p => decide (p.2 ≤ 0)) = some (i, g) →
      n ≤ i ∧ i - n < l.length ∧ l.getD (i - n) 1 = g ∧ g ≤ 0 ∧
        ∀ j, j < i - n → 0 < l.getD j 1)
    ∧ ((l.enumFrom n).find? (fun p => decide (p.2 ≤ 0)) = none → ∀ x ∈ l, 0 < x) := by
  induction l generalizing n with
  | nil => simp
  | cons a tl ih =>
    by_cases ha : a ≤ 0
    · have hfind : ((a :: tl).enumFrom n).find? (fun p => decide (p.2 ≤ 0))
          = some (n, a) := by
        rw [List.enumFrom_cons, List.find?_cons]
        simp [ha]
      refine ⟨?_, ?_⟩
      · intro i g h
        rw [hfind] at h
        obtain ⟨rfl, rfl⟩ : n = i ∧ a = g := by
          constructor <;> [exact congrArg Prod.fst (Option.some.inj h);
                          exact congrArg Prod.snd (Option.some.inj h)]
        refine ⟨le_refl _, by simp, by simp, ha, ?_⟩
        intro j hj
        omega
      · intro h
        rw [hfind] at h
        exact absurd h (by simp)
    · have hfind : ((a :: tl).enumFrom n).find? (fun p => decide (p.2 ≤ 0))
          = (tl.enumFrom (n + 1)).find? (fun p => decide (p.2 ≤ 0)) := by
        rw [List.enumFrom_cons, List.find?_cons]
        simp [ha]
      refine ⟨?_, ?_⟩
      · intro i g h
        rw [hfind] at h
        obtain ⟨h1, h2, h3, h4, h5⟩ := (ih (n + 1)).1 i g h
        have hni : n + 1 ≤ i := h1
        refine ⟨by omega, by simp; omega, ?_, h4, ?_⟩
        · have heq : i - n = (i - (n + 1)) + 1 := by omega
          rw [heq, List.getD_cons_succ]
          exact h3
        · intro j hj
          cases j with
          | zero =>
            rw [List.getD_cons_zero]
            omega
          | succ j2 =>
            rw [List.getD_cons_succ]
            exact h5 j2 (by omega)
      · intro h
        rw [hfind] at h
        intro x hx
        rcases List.mem_cons.mp hx with rfl | hmem
        · omega
        · exact (ih (n + 1)).2 h x hmem

theorem getD_drop (l : List Int) (base j : Nat) (h : j < (l.drop base).length) :
    (l.drop base).getD j 1 = l.getD (base + j) 1 := by
  rw [List.getD_eq_getElem _ _ h, List.getElem_drop,
      List.getD_eq_getElem _ _ (by simp at h ⊢; omega)]

/-! ## C1: `find_next` returns the first reusable slot -/

/--
C1: for every generation table and starting index `base`, `find_next base`
returns `Entity(i, 1 - g)` where `i` is the smallest index at or past `base`
whose table entry `g` satisfies `g ≤ 0`; when every entry at or past `base` is
positive it returns `Entity(table_length, 1)` instead.  (The two disjuncts
are mutually exclusive: the second pins the returned index below the table
length, the first at the table length with every scanned entry positive.)
-/
theorem find_next_correct (gens : Generations) (base : Nat) :
    ((find_next gens base).id = gens.length ∧ (find_next gens base).gen = 1 ∧
       ∀ i, base ≤ i → i < gens.length → 0 < gens.getD i 1)
    ∨ (base ≤ (find_next gens base).id ∧ (find_next gens base).id < gens.length ∧
       gens.getD (find_next gens base).id 1 ≤ 0 ∧
       (find_next gens base).gen = 1 - gens.getD (find_next gens base).id 1 ∧
       ∀ j, base ≤ j → j < (find_next gens base).id → 0 < gens.getD j 1) := by
  have hrw : gens.enum.drop base = (gens.drop base).enumFrom base := by
    have := enumFrom_drop gens 0 base
    simpa [List.enum] using this
  have hspec := find?_enumFrom_spec (gens.drop base) base
  cases hfind : ((gens.drop base).enumFrom base).find? (fun p => decide (p.2 ≤ 0)) with
  | none =>
    have hval : find_next gens base = ⟨gens.length, 1⟩ := by
      unfold find_next
      rw [hrw, hfind]
    left
    rw [hval]
    refine ⟨rfl, rfl, ?_⟩
    intro i hbase hlen
    have hx := hspec.2 hfind
    have hi2 : i - base < (gens.drop base).length := by simp; omega
    have := hx ((gens.drop base).getD (i - base) 1) (by
      rw [List.getD_eq_getElem _ _ hi2]
      exact List.getElem_mem hi2)
    rwa [getD_drop _ _ _ hi2, Nat.add_sub_cancel' hbase] at this
  | some p =>
    obtain ⟨i, g⟩ := p
    obtain ⟨h1, h2, h3, h4, h5⟩ := hspec.1 i g hfind
    have hval : find_next gens base = ⟨i, 1 - g⟩ := by
      unfold find_next
      rw [hrw, hfind]
    rw [getD_drop _ _ _ h2, Nat.add_sub_cancel' h1] at h3
    have hilen : i < gens.length := by
      have := h2
      simp at this
      omega
    right
    rw [hval]
    refine ⟨h1, hilen, h3 ▸ h4, by rw [h3], ?_⟩
    intro j hbj hji
    have hji2 : j < i := hji
    have hj2 : j - base < i - base := by omega
    have := h5 (j - base) hj2
    rwa [getD_drop _ _ _ (by simp at h2 ⊢; omega), Nat.add_sub_cancel' hbj] at this


/-! ## C5: the live-entity iterator -/

theorem entityIterFrom_mem (l : Generations) (base : Nat) (e : Entity) :
    e ∈ entityIterFrom l base ↔
      ∃ j, j < l.length ∧ l.getD j 0 = e.gen ∧ 0 < e.gen ∧ e.id = base + j := by
  induction l generalizing base with
  | nil => simp [entityIterFrom]
  | cons g tl ih =>
    by_cases hg : g > 0
    · simp only [entityIterFrom, if_pos hg, List.mem_cons, ih (base + 1)]
      constructor
      · rintro (rfl | ⟨j, hj, hgd, hgen, hid⟩)
        · exact ⟨0, by simp, by simp, hg, by simp⟩
        · exact ⟨j + 1, by simp; omega, by simpa using hgd, hgen, by omega⟩
      · rintro ⟨j, hj, hgd, hgen, hid⟩
        cases j with
        | zero =>
          left
          cases e with
          | mk i ge =>
            simp at hid hgd ⊢
            exact ⟨hid, hgd.symm⟩
        | succ j2 =>
          right
          exact ⟨j2, by simp at hj; omega, by simpa using hgd, hgen, by omega⟩
    · simp only [entityIterFrom, if_neg hg, ih (base + 1)]
      constructor
      · rintro ⟨j, hj, hgd, hgen, hid⟩
        exact ⟨j + 1, by simp; omega, by simpa using hgd, hgen, by omega⟩
      · rintro ⟨j, hj, hgd, hgen, hid⟩
        cases j with
        | zero =>
          simp at hgd
          exact absurd (hgd ▸ hgen) hg
        | succ j2 =>
          exact ⟨j2, by simp at hj; omega, by simpa using hgd, hgen, by omega⟩

theorem entityIterFrom_ids (l : Generations) (base : Nat) :
    (∀ e ∈ entityIterFrom l base, base ≤ e.id) ∧
      List.Pairwise (fun a b => a.id < b.id) (entityIterFrom l base) := by
  induction l generalizing base with
  | nil => simp [entityIterFrom]
  | cons g tl ih =>
    by_cases hg : g > 0
    · simp only [entityIterFrom, if_pos hg]
      obtain ⟨ih1, ih2⟩ := ih (base + 1)
      refine ⟨?_, ?_⟩
      · intro e he
        rcases List.mem_cons.mp he with rfl | hmem
        · exact le_refl _
        · have := ih1 e hmem
          omega
      · rw [List.pairwise_cons]
        refine ⟨?_, ih2⟩
        intro e hmem
        have := ih1 e hmem
        simp
        omega
    · simp only [entityIterFrom, if_neg hg]
      obtain ⟨ih1, ih2⟩ := ih (base + 1)
      exact ⟨fun e he => by have := ih1 e he; omega, ih2⟩

/--
C5: the sequence `World::entities()` produces contains exactly the entities
`Entity(i, g)` whose table entry at index `i` is `g` with `g > 0`, in strictly
ascending index order; in particular no index whose table entry is `≤ 0`
occurs in it.
-/
theorem entities_correct (gens : Generations) :
    (∀ e : Entity, e ∈ entities gens ↔
       (e.id < gens.length ∧ gens.getD e.id 0 = e.gen ∧ 0 < e.gen))
    ∧ List.Pairwise (fun a b => a.id < b.id) (entities gens) := by
  refine ⟨?_, (entityIterFrom_ids gens 0).2⟩
  intro e
  rw [entities, entityIterFrom_mem]
  constructor
  · rintro ⟨j, hj, hgd, hgen, hid⟩
    simp at hid
    subst hid
    exact ⟨hj, hgd, hgen⟩
  · rintro ⟨hlen, hgd, hgen⟩
    exact ⟨e.id, hlen, hgd, hgen, by omega⟩

/-! ## C8: fetch is one-shot -/

/--
C8: within one dispatch, the first `fetch` call (the pulse slot still full)
runs its closure against the world and returns the closure's result, leaving
the pulse slot consumed; any call finding the slot already consumed — in
particular a second call in the same dispatch — fails fatally.
-/
theorem fetch_once {α β : Type} (world : α) (f g : α → β) :
    fetch (some ()) world f = some (f world, none) ∧
    (∀ r s2, fetch (some ()) world f = some (r, s2) →
      fetch s2 world g = (none : Option (β × Option Unit))) := by
  refine ⟨rfl, ?_⟩
  intro r s2 h
  have hs : s2 = none := by
    have : (f world, (none : Option Unit)) = (r, s2) := Option.some.inj h
    exact (congrArg Prod.snd this).symm
  rw [hs]
  rfl

/-! ## C3: del_entity and its assertion -/

/--
C3 counterexample: killing a live slot through a handle whose generation does
not match the table is not fatal.  With table `[3]`, `del_entity` applied to
the handle `Entity(0, 5)` — generation 5, while the table holds 3 — succeeds
and flips the slot to `-3` (it would also update the prediction to
`Entity(0, 4)`), instead of failing the assertion.
-/
theorem del_entity_mismatch_not_fatal :
    (5 : Int) ≠ (3 : Int) ∧
    del_entity [3] ⟨⟨1, 1⟩, [], []⟩ ⟨0, 5⟩ = some ([-3], ⟨⟨0, 4⟩, [], []⟩) := by
  exact ⟨by decide, by decide⟩

/--
C3 amended: `del_entity e` fails fatally exactly when the generation table has
no strictly positive entry at `e`'s index (the index is out of bounds — a
never-allocated entity — or the slot is dead); the handle's own generation is
never compared against the table, so killing through a mismatched-generation
handle of a live slot is not detected.  When the call does not fail it flips
the sign of the slot's generation.
-/
theorem del_entity_correct (gens : Generations) (app : Appendix) (e : Entity) :
    (del_entity gens app e = none ↔ ¬ (e.id < gens.length ∧ 0 < gens.getD e.id 0))
    ∧ (∀ r, del_entity gens app e = some r →
        r.1 = gens.set e.id (-(gens.getD e.id 0)) ∧
        r.1.getD e.id 0 = -(gens.getD e.id 0)) := by
  by_cases h1 : e.id < gens.length
  · by_cases h2 : 0 < gens.getD e.id 0
    · refine ⟨by simp [del_entity, h1, h2], ?_⟩
      intro r hr
      simp only [del_entity, if_pos h1, if_pos h2] at hr
      obtain rfl : (gens.set e.id (-(gens.getD e.id 0)),
          if e.id < app.next.id then { app with next := ⟨e.id, gens.getD e.id 0 + 1⟩ }
          else app) = r := Option.some.inj hr
      refine ⟨rfl, ?_⟩
      rw [List.getD_eq_getElem _ _ (by simpa using h1)]
      simp [List.getElem_set_self, h1]
    · refine ⟨by simp [del_entity, h1, h2], ?_⟩
      intro r hr
      simp [del_entity, h1] at hr
      rw [List.getD_eq_getElem _ _ h1] at h2
      exact absurd hr.1 h2
  · refine ⟨by simp [del_entity, h1], ?_⟩
    intro r hr
    simp [del_entity, h1] at hr

/-! ## C7: kill then immediate reallocation reuses the slot -/

/--
C7: for a live entity `e0` whose index precedes the predicted `next`,
`del_entity e0` followed by `add_entity` (before any other allocation) returns
an entity with `e0`'s index and a generation one greater than the (positive)
table generation `e0`'s slot held before the kill.
-/
theorem kill_then_add_reuses_slot (gens : Generations) (app : Appendix) (e0 : Entity)
    (h1 : e0.id < gens.length) (h2 : 0 < gens.getD e0.id 0)
    (h3 : e0.id < app.next.id) :
    ∃ r, del_entity gens app e0 = some r ∧
      ∃ r2, add_entity r.1 r.2 = some r2 ∧
        r2.1 = ⟨e0.id, gens.getD e0.id 0 + 1⟩ := by
  have h2e : 0 < gens[e0.id] := by
    rwa [List.getD_eq_getElem _ _ h1] at h2
  have hdel : del_entity gens app e0 =
      some (gens.set e0.id (-(gens.getD e0.id 0)),
        { app with next := ⟨e0.id, gens.getD e0.id 0 + 1⟩ }) := by
    simp [del_entity, h1, h2e, h3, List.getD_eq_getElem _ _ h1]
  have hgen1 : (0 : Int) < gens.getD e0.id 0 + 1 := by omega
  have hgenne : gens.getD e0.id 0 + 1 ≠ 1 := by omega
  have hadd : add_entity (gens.set e0.id (-(gens.getD e0.id 0)))
      { app with next := ⟨e0.id, gens.getD e0.id 0 + 1⟩ } =
      some (⟨e0.id, gens.getD e0.id 0 + 1⟩,
        gens.set e0.id (-(gens.getD e0.id 0)),
        { app with next :=
            find_next (gens.set e0.id (-(gens.getD e0.id 0))) (e0.id + 1) }) := by
    simp [add_entity, hgen1, hgenne]
    simp only [← List.getD_eq_getElem?_getD]
    omega
  exact ⟨_, hdel, _, hadd, rfl⟩

/--
C7 witness: with table `[2]` and prediction `Entity(1, 1)`, killing the live
entity `Entity(0, 2)` and immediately allocating again returns an entity at
index 0 with generation `2 + 1 = 3`.
-/
theorem kill_then_add_reuses_slot_witness :
    ∃ r, del_entity [2] ⟨⟨1, 1⟩, [], []⟩ ⟨0, 2⟩ = some r ∧
      ∃ r2, add_entity r.1 r.2 = some r2 ∧
        r2.1 = ⟨0, List.getD [2] 0 0 + 1⟩ :=
  kill_then_add_reuses_slot [2] ⟨⟨1, 1⟩, [], []⟩ ⟨0, 2⟩
    (by decide) (by decide) (by decide)

theorem find_next_gen_pos (gens : Generations) (base : Nat) :
    0 < (find_next gens base).gen := by
  unfold find_next
  cases hfind : (gens.enum.drop base).find? (fun p => p.2 ≤ 0) with
  | none => simp
  | some p =>
    obtain ⟨i, g⟩ := p
    have hle := List.find?_some hfind
    simp only [decide_eq_true_eq] at hle
    simp only []
    omega

theorem rest_subs_next_pos (subs : List Entity) :
    ∀ (gens : Generations) (next : Entity) (r : Generations × Entity),
      rest_subs gens next subs = some r → 0 < next.gen →
      (∀ e ∈ subs, 0 < e.gen) → 0 < r.2.gen := by
  induction subs with
  | nil =>
    intro gens next r h hpos hlive
    obtain rfl : (gens, next) = r := Option.some.inj h
    exact hpos
  | cons e tl ih =>
    intro gens next r h hpos hlive
    unfold rest_subs at h
    by_cases hid : e.id < gens.length
    · rw [if_pos hid] at h
      by_cases hmatch : e.gen = gens.getD e.id 0
      · rw [if_pos hmatch] at h
        refine ih _ _ _ h ?_ (fun x hx => hlive x (List.mem_cons_of_mem _ hx))
        by_cases hlt : e.id < next.id
        · rw [if_pos hlt]
          have := hlive e (List.mem_cons_self _ _)
          show 0 < e.gen + 1
          omega
        · rw [if_neg hlt]
          exact hpos
      · rw [if_neg hmatch] at h
        cases h
    · rw [if_neg hid] at h
      cases h

/-! ## C10: the predicted next entity has positive generation -/

/--
C10: the appendix's predicted `next` always carries a strictly positive
generation: `find_next` only ever returns positive generations (so the
prediction made at `Scheduler::new` and every re-prediction is positive), and
each of `add_entity`, `del_entity`, `WorldArg::insert` and `rest`
re-establishes positivity — for `del_entity` and `rest` under the spec's
precondition that the killed / queued-for-removal entities are live (positive
generation).
-/
theorem next_prediction_positive :
    (∀ gens base, 0 < (find_next gens base).gen)
    ∧ (∀ gens app r, add_entity gens app = some r → 0 < r.2.2.next.gen)
    ∧ (∀ gens app e r, 0 < app.next.gen → del_entity gens app e = some r →
        0 < r.2.next.gen)
    ∧ (∀ gens app, 0 < app.next.gen → 0 < (insert gens app).2.next.gen)
    ∧ (∀ gens app r, 0 < app.next.gen → (∀ e ∈ app.sub_queue, 0 < e.gen) →
        rest gens app = some r → 0 < r.2.next.gen) := by
  refine ⟨find_next_gen_pos, ?_, ?_, ?_, ?_⟩
  · intro gens app r h
    unfold add_entity at h
    by_cases hpos : app.next.gen > 0
    · rw [if_pos hpos] at h
      by_cases hone : app.next.gen = 1
      · rw [if_pos hone] at h
        by_cases hlen : gens.length = app.next.id
        · rw [if_pos hlen] at h
          obtain rfl := Option.some.inj h
          exact find_next_gen_pos _ _
        · rw [if_neg hlen] at h
          cases h
      · rw [if_neg hone] at h
        obtain rfl := Option.some.inj h
        exact find_next_gen_pos _ _
    · rw [if_neg hpos] at h
      cases h
  · intro gens app e r hpos h
    unfold del_entity at h
    by_cases hid : e.id < gens.length
    · rw [if_pos hid] at h
      by_cases hg : gens.getD e.id 0 > 0
      · rw [if_pos hg] at h
        obtain rfl := Option.some.inj h
        by_cases hlt : e.id < app.next.id
        · simp only [if_pos hlt]
          show 0 < gens.getD e.id 0 + 1
          omega
        · simp only [if_neg hlt]
          exact hpos
      · rw [if_neg hg] at h
        cases h
    · rw [if_neg hid] at h
      cases h
  · intro gens app hpos
    exact find_next_gen_pos _ _
  · intro gens app r hpos hlive h
    unfold rest at h
    rw [Option.bind_eq_some] at h
    obtain ⟨gens2, hadds, h⟩ := h
    rw [Option.map_eq_some'] at h
    obtain ⟨p, hsubs, rfl⟩ := h
    exact rest_subs_next_pos _ _ _ _ hsubs hpos hlive

theorem find_next_single (g : Int) (hg : g ≤ 0) : find_next [g] 0 = ⟨0, 1 - g⟩ := by
  unfold find_next
  simp [List.enum, List.find?_cons, hg]

theorem runRev_spec (ops : List SlotOp) :
    ∀ (g gf : Int) (revs : List Int),
      runRev g ops = some (gf, revs) →
      (∀ r ∈ revs, |g| < r) ∧ List.Chain' (· < ·) revs ∧ |g| ≤ |gf| := by
  induction ops with
  | nil =>
    intro g gf revs h
    obtain ⟨rfl, rfl⟩ : g = gf ∧ ([] : List Int) = revs := by
      have := Option.some.inj h
      exact ⟨congrArg Prod.fst this, congrArg Prod.snd this⟩
    simp
  | cons op ops ih =>
    intro g gf revs h
    unfold runRev at h
    cases op with
    | alloc =>
      by_cases hg : g ≤ 0
      · simp only [slotStep, if_pos hg, find_next_single g hg] at h
        cases hrec : runRev (1 - g) ops with
        | none =>
          rw [hrec] at h
          cases h
        | some p =>
          obtain ⟨gf2, revs2⟩ := p
          rw [hrec] at h
          obtain ⟨rfl, rfl⟩ : gf2 = gf ∧ (1 - g) :: revs2 = revs := by
            have := Option.some.inj h
            exact ⟨congrArg Prod.fst this, by simpa using congrArg Prod.snd this⟩
          obtain ⟨ha, hb, hc⟩ := ih (1 - g) gf2 revs2 hrec
          have habsg : |g| = -g := abs_of_nonpos hg
          have habs2 : |1 - g| = 1 - g := abs_of_pos (by omega)
          refine ⟨?_, ?_, by omega⟩
          · intro r hr
            rcases List.mem_cons.mp hr with rfl | hmem
            · omega
            · have := ha r hmem
              omega
          · rw [List.chain'_cons']
            refine ⟨?_, hb⟩
            intro y hy
            have := ha y (List.mem_of_mem_head? hy)
            omega
      · simp only [slotStep, if_neg hg] at h
        cases h
    | kill =>
      by_cases hg : 0 < g
      · simp only [slotStep, if_pos hg] at h
        cases hrec : runRev (-g) ops with
        | none =>
          rw [hrec] at h
          cases h
        | some p =>
          obtain ⟨gf2, revs2⟩ := p
          rw [hrec] at h
          obtain ⟨rfl, rfl⟩ : gf2 = gf ∧ revs2 = revs := by
            have := Option.some.inj h
            exact ⟨congrArg Prod.fst this, by simpa using congrArg Prod.snd this⟩
          obtain ⟨ha, hb, hc⟩ := ih (-g) gf2 revs2 hrec
          rw [abs_neg] at ha hc
          exact ⟨ha, hb, hc⟩
      · simp only [slotStep, if_neg hg] at h
        cases h

/-! ## C6: revival strictly increases the generation -/

/--
C6: reviving a slot whose generation is `g ≤ 0` assigns it `1 - g` (what
`find_next` computes for that slot), which strictly exceeds `|g|` — the
version of the slot's last live occupant — and hence every positive generation
the slot ever held; consequently, along any sequence of allocate/kill
operations on one slot starting from the never-occupied generation 0, the
generations assigned at successive revivals are strictly increasing (and all
positive).
-/
theorem revival_generation_increases :
    (∀ g : Int, g ≤ 0 → (find_next [g] 0).gen = 1 - g ∧ |g| < 1 - g)
    ∧ (∀ ops gf revs, runRev 0 ops = some (gf, revs) →
        List.Chain' (· < ·) revs ∧ ∀ r ∈ revs, 0 < r) := by
  constructor
  · intro g hg
    rw [find_next_single g hg]
    have habs : |g| = -g := abs_of_nonpos hg
    exact ⟨rfl, by omega⟩
  · intro ops gf revs h
    obtain ⟨ha, hb, _⟩ := runRev_spec ops 0 gf revs h
    refine ⟨hb, ?_⟩
    intro r hr
    have := ha r hr
    rw [abs_zero] at this
    exact this

theorem visitedOf_append (t1 t2 : List Ev) :
    visitedOf (t1 ++ t2) = visitedOf t1 ++ visitedOf t2 := by
  induction t1 with
  | nil => rfl
  | cons ev tl ih =>
    cases ev with
    | closureRet => simpa [visitedOf] using ih
    | pulse => simpa [visitedOf] using ih
    | visit e => simpa [visitedOf] using ih

theorem passTrace_visited (writes reads : List (Entity → Bool)) (l : List Entity) :
    visitedOf (passTrace writes reads l) = l.filter (fun e => presentAll writes reads e) := by
  induction l with
  | nil => rfl
  | cons e tl ih =>
    by_cases hp : presentAll writes reads e
    · simp [passTrace, hp, visitedOf, List.filter_cons, ih]
    · simp [passTrace, hp, visitedOf, List.filter_cons, ih]

theorem passTrace_only_visits (writes reads : List (Entity → Bool)) (l : List Entity) :
    ∀ ev ∈ passTrace writes reads l, ∃ e, ev = Ev.visit e := by
  induction l with
  | nil => simp [passTrace]
  | cons e tl ih =>
    intro ev hev
    by_cases hp : presentAll writes reads e
    · simp [passTrace, hp] at hev
      rcases hev with rfl | hmem
      · exact ⟨e, rfl⟩
      · exact ih ev hmem
    · simp [passTrace, hp] at hev
      exact ih ev hev

theorem insertMany_addQueue (gens : Generations) (n : Nat) :
    ∀ app : Appendix,
      (insertMany gens app n).2.add_queue = app.add_queue ++ (insertMany gens app n).1 := by
  induction n with
  | zero => intro app; simp [insertMany]
  | succ n ih =>
    intro app
    simp only [insertMany, insert]
    rw [ih]
    simp

/-! ## C2: which entities a dispatch visits, and in what order -/

/--
C2: in the body a system entry point dispatches, the user functor is invoked
for an entity exactly when every requested write storage and read storage has
a present value for it; the visited sequence is the live entities of the
generation table (ascending index order) passing that filter, followed by a
second pass over exactly the appendix's `add_queue` — which, when the queue
was empty at dispatch start, holds precisely the entities returned by the
`insert` calls made during the dispatch, in call order — under the same
filter.
-/
theorem dispatch_visits (writes reads : List (Entity → Bool)) (gens : Generations)
    (adds : List Entity) :
    (∀ e, (e ∈ entities gens ∨ e ∈ adds) →
        (e ∈ visitedOf (dispatchTrace writes reads gens adds) ↔
          presentAll writes reads e = true))
    ∧ visitedOf (dispatchTrace writes reads gens adds)
        = (entities gens).filter (fun e => presentAll writes reads e)
          ++ adds.filter (fun e => presentAll writes reads e)
    ∧ List.Pairwise (fun a b => a.id < b.id)
        ((entities gens).filter (fun e => presentAll writes reads e))
    ∧ (∀ (app : Appendix) (n : Nat), app.add_queue = [] →
        (insertMany gens app n).2.add_queue = (insertMany gens app n).1) := by
  have hvis : visitedOf (dispatchTrace writes reads gens adds)
      = (entities gens).filter (fun e => presentAll writes reads e)
        ++ adds.filter (fun e => presentAll writes reads e) := by
    simp only [dispatchTrace, visitedOf, visitedOf_append, passTrace_visited]
  refine ⟨?_, hvis, ?_, ?_⟩
  · intro e hin
    rw [hvis]
    constructor
    · intro hmem
      rcases List.mem_append.mp hmem with hm | hm
      · exact (List.mem_filter.mp hm).2
      · exact (List.mem_filter.mp hm).2
    · intro hpres
      rcases hin with hm | hm
      · exact List.mem_append.mpr (Or.inl (List.mem_filter.mpr ⟨hm, hpres⟩))
      · exact List.mem_append.mpr (Or.inr (List.mem_filter.mpr ⟨hm, hpres⟩))
  · exact List.Pairwise.sublist (List.filter_sublist _) (entityIterFrom_ids gens 0).2
  · intro app n happ
    rw [insertMany_addQueue, happ]
    simp

/-! ## C9: the pulse fires between lock acquisition and iteration -/

/--
C9: in the trace of a dispatched system body, the one-shot completion signal
fires immediately after the lock-acquisition closure passed to `fetch`
returns and strictly before every per-entity visit: the trace is
`closureRet :: pulse :: tail` where the tail consists exclusively of entity
visits — so the signal does not wait for the iteration (it precedes all of
it), and it never fires before the closure has returned.
-/
theorem pulse_between_closure_and_iteration (writes reads : List (Entity → Bool))
    (gens : Generations) (adds : List Entity) :
    ∃ tl, dispatchTrace writes reads gens adds = Ev.closureRet :: Ev.pulse :: tl
      ∧ ∀ ev ∈ tl, ∃ e, ev = Ev.visit e := by
  refine ⟨_, rfl, ?_⟩
  intro ev hev
  rcases List.mem_append.mp hev with hm | hm
  · exact passTrace_only_visits writes reads _ ev hm
  · exact passTrace_only_visits writes reads _ ev hm

theorem getD_replicate_zero (k i : Nat) : (List.replicate k (0 : Int)).getD i 0 = 0 := by
  by_cases h : i < k
  · rw [List.getD_eq_getElem _ _ (by simpa using h)]
    exact List.getElem_replicate _ _
  · exact List.getD_eq_default _ _ (by simpa using h)

/-! ## C4: the quiescence merge -/

/--
C4: `rest` processes each queued addition `e` by zero-filling the table up to
`e`'s index (`growTo`), failing fatally exactly when `e.gen` differs from
`1 - table[e.id]` on the grown table and otherwise committing `e.gen`; it
processes each queued removal `e` by failing fatally exactly when the table
entry at `e.id` is missing or differs from `e.gen`, otherwise negating the
entry and lowering the running `next` to `Entity(e.id, e.gen + 1)` when
`e.id` precedes `next`'s index; and after a successful `rest` both queues are
empty.  The first conjunct pins down the growth step: entries below the old
length are preserved and all new entries are zero.
-/
theorem rest_correct :
    (∀ (gens : Generations) (n : Nat),
        (growTo gens n).length = max n gens.length ∧
        (∀ i, i < gens.length → (growTo gens n).getD i 0 = gens.getD i 0) ∧
        (∀ i, gens.length ≤ i → (growTo gens n).getD i 0 = 0))
    ∧ (∀ (gens : Generations) (e : Entity) (tl : List Entity),
        rest_adds gens (e :: tl) = none ↔
          (e.gen ≠ 1 - (growTo gens (e.id + 1)).getD e.id 0 ∨
           rest_adds ((growTo gens (e.id + 1)).set e.id e.gen) tl = none))
    ∧ (∀ (gens : Generations) (e : Entity) (r : Generations),
        rest_adds gens [e] = some r →
          e.gen = 1 - (growTo gens (e.id + 1)).getD e.id 0 ∧
          r = (growTo gens (e.id + 1)).set e.id e.gen)
    ∧ (∀ (gens : Generations) (next : Entity) (e : Entity) (tl : List Entity),
        rest_subs gens next (e :: tl) = none ↔
          (¬ (e.id < gens.length ∧ gens.getD e.id 0 = e.gen) ∨
           rest_subs (gens.set e.id (-e.gen))
             (if e.id < next.id then ⟨e.id, e.gen + 1⟩ else next) tl = none))
    ∧ (∀ (gens : Generations) (next e : Entity) (r : Generations × Entity),
        rest_subs gens next [e] = some r →
          (e.id < gens.length ∧ gens.getD e.id 0 = e.gen) ∧
          r = (gens.set e.id (-e.gen),
               if e.id < next.id then ⟨e.id, e.gen + 1⟩ else next))
    ∧ (∀ (gens : Generations) (app : Appendix) (r : Generations × Appendix),
        rest gens app = some r → r.2.add_queue = [] ∧ r.2.sub_queue = []) := by
  refine ⟨?_, ?_, ?_, ?_, ?_, ?_⟩
  · intro gens n
    refine ⟨by simp [growTo]; omega, ?_, ?_⟩
    · intro i hi
      exact List.getD_append _ _ _ _ hi
    · intro i hi
      rw [growTo, List.getD_append_right _ _ _ _ hi]
      exact getD_replicate_zero _ _
  · intro gens e tl
    by_cases hc : e.gen = 1 - (growTo gens (e.id + 1)).getD e.id 0
    · simp only [rest_adds]
      rw [if_pos hc]
      constructor
      · exact fun h => Or.inr h
      · rintro (h | h)
        · exact absurd hc h
        · exact h
    · simp only [rest_adds]
      rw [if_neg hc]
      exact ⟨fun _ => Or.inl hc, fun _ => rfl⟩
  · intro gens e r h
    simp only [rest_adds] at h
    by_cases hc : e.gen = 1 - (growTo gens (e.id + 1)).getD e.id 0
    · rw [if_pos hc] at h
      exact ⟨hc, (Option.some.inj h).symm⟩
    · rw [if_neg hc] at h
      cases h
  · intro gens next e tl
    by_cases hid : e.id < gens.length
    · by_cases hmatch : e.gen = gens.getD e.id 0
      · simp only [rest_subs]
        rw [if_pos hid, if_pos hmatch, ← hmatch]
        simp [hid]
      · simp only [rest_subs]
        rw [if_pos hid, if_neg hmatch]
        have hne : ¬ (gens.getD e.id 0 = e.gen) := fun h => hmatch h.symm
        have hne2 : ¬ gens[e.id] = e.gen := by
          rwa [List.getD_eq_getElem _ _ hid] at hne
        simp [hid, hne2]
    · simp only [rest_subs]
      rw [if_neg hid]
      simp [hid]
  · intro gens next e r h
    simp only [rest_subs] at h
    by_cases hid : e.id < gens.length
    · by_cases hmatch : e.gen = gens.getD e.id 0
      · rw [if_pos hid, if_pos hmatch] at h
        rw [← hmatch] at h
        exact ⟨⟨hid, hmatch.symm⟩, (Option.some.inj h).symm⟩
      · rw [if_pos hid, if_neg hmatch] at h
        cases h
    · rw [if_neg hid] at h
      cases h
  · intro gens app r h
    rw [rest, Option.bind_eq_some] at h
    obtain ⟨gens2, hadds, h⟩ := h
    rw [Option.map_eq_some'] at h
    obtain ⟨p, hsubs, rfl⟩ := h
    exact ⟨rfl, rfl⟩

end Specs
